import Mathlib

/-!
Verification development for the Hoa2D decoder layer (src/Dev/Decoder.h).

The repository ships `Decoder.h` as a header: the inline method bodies found
there (the harmonic accessors, `getHarmonicIndex`, the `Planewaves` read
accessors and the `DecoderMulti` forwarding code) are embedded directly from
the source.  Method bodies that the header only declares (the `Ambisonic`
constructor that fills `m_harmonics_orders`, the `Planewaves` azimuth setters,
the `DecoderRegular` matrix construction and `process`, the
`DecoderBinaural::setSampleRate` body, and the `DecoderIrregular`
nearest-channel computation) are modelled from the specification; each such
definition carries a doc comment saying so.
-/

open Real

/-! ## Harmonic indexing (class Ambisonic) -/

/-- Modelled from the spec: the `Ambisonic` constructor body is not in src/.
Per the spec, for order N the harmonic count `m_number_of_harmonics` is
2N+1. -/
def m_number_of_harmonics (order : ℕ) : ℕ := 2 * order + 1

/-- Modelled from the spec: the `Ambisonic` constructor body that fills the
`m_harmonics_orders` array is not in src/.  Per the spec's canonical ordering,
index 0 holds degree 0, even index 2k holds degree +k, odd index 2k-1 holds
degree -k, giving the sequence 0, -1, +1, -2, +2, -3, +3, ... -/
def m_harmonics_orders (index : ℕ) : ℤ :=
  if index % 2 = 0 then ((index / 2 : ℕ) : ℤ) else -(((index + 1) / 2 : ℕ) : ℤ)

/-- `Ambisonic::getHarmonicOrder` (src/Dev/Decoder.h:66-70): returns the signed
entry of `m_harmonics_orders` at `index`.  The `assert(index <
m_number_of_harmonics)` becomes a hypothesis of the theorems using it. -/
def getHarmonicOrder (index : ℕ) : ℤ := m_harmonics_orders index

/-- `Ambisonic::getHarmonicDegree` (src/Dev/Decoder.h:80-84): returns
`abs(m_harmonics_orders[index])`. -/
def getHarmonicDegree (index : ℕ) : ℤ := |m_harmonics_orders index|

/-- `Ambisonic::getHarmonicIndex` (src/Dev/Decoder.h:94-101): for a signed
harmonic order, returns `-harmOrder * 2 - 1` when negative, else
`harmOrder * 2` (as an unsigned int, hence `toNat`). -/
def getHarmonicIndex (harmOrder : ℤ) : ℕ :=
  if harmOrder < 0 then (-harmOrder * 2 - 1).toNat else (harmOrder * 2).toNat

/-- Claim C1: for every order N ≥ 1 and every valid harmonic index i in
[0, 2N], applying `getHarmonicIndex` to the signed degree returned by the
signed-degree accessor (`getHarmonicOrder` in the code) yields i back. -/
theorem harmonic_index_round_trip (order i : ℕ) (h : 1 ≤ order)
    (hi : i < m_number_of_harmonics order) :
    getHarmonicIndex (getHarmonicOrder i) = i := by
  simp only [getHarmonicIndex, getHarmonicOrder, m_harmonics_orders]
  split_ifs <;> omega

/-- Witness for C1 at order 2, index 3. -/
theorem harmonic_index_round_trip_witness :
    getHarmonicIndex (getHarmonicOrder 3) = 3 :=
  harmonic_index_round_trip 2 3 (by decide) (by decide)

/-- Claim C2: for every order N ≥ 1 the harmonic count equals 2N+1, and the
signed-degree accessor yields the canonical sequence 0, -1, +1, -2, +2, ...:
index 0 maps to 0, even index 2k to +k, odd index 2k-1 to -k. -/
theorem harmonic_count_and_degree_sequence (order k : ℕ) (h : 1 ≤ order) :
    m_number_of_harmonics order = 2 * order + 1
    ∧ getHarmonicOrder 0 = 0
    ∧ (1 ≤ k → k ≤ order →
        getHarmonicOrder (2 * k) = (k : ℤ)
        ∧ getHarmonicOrder (2 * k - 1) = -(k : ℤ)) := by
  refine ⟨rfl, ?_, fun h1 h2 => ⟨?_, ?_⟩⟩ <;>
    · simp only [getHarmonicOrder, m_harmonics_orders]
      split_ifs <;> omega

/-- Witness for C2 at order 3, k = 2. -/
theorem harmonic_count_and_degree_sequence_witness :
    m_number_of_harmonics 3 = 2 * 3 + 1
    ∧ getHarmonicOrder 4 = 2 ∧ getHarmonicOrder 3 = -2 := by
  have h := harmonic_count_and_degree_sequence 3 2 (by decide)
  exact ⟨h.1, (h.2.2 (by decide) (by decide)).1, (h.2.2 (by decide) (by decide)).2⟩

/-- Claim C9: for every valid harmonic index i, `getHarmonicDegree i` equals
the absolute value of `getHarmonicOrder i`, and in particular is never
negative. -/
theorem harmonic_degree_abs_of_order (order i : ℕ)
    (hi : i < m_number_of_harmonics order) :
    getHarmonicDegree i = |getHarmonicOrder i| ∧ 0 ≤ getHarmonicDegree i :=
  ⟨rfl, abs_nonneg _⟩

/-- Witness for C9 at order 1, index 1. -/
theorem harmonic_degree_abs_of_order_witness :
    getHarmonicDegree 1 = |getHarmonicOrder 1| ∧ 0 ≤ getHarmonicDegree 1 :=
  harmonic_degree_abs_of_order 1 1 (by decide)

/-! ## Channel layout (class Planewaves) -/

/-- The `Planewaves` state (src/Dev/Decoder.h:188-299): a channel count and the
stored per-channel azimuths. -/
structure Planewaves where
  m_number_of_channels : ℕ
  m_channels_azimuth : ℕ → ℝ

/-- Modelled from the spec: the bodies of the azimuth setters are not in src/.
Per the spec, stored azimuths are normalized into [0, 2π); this is the
canonical wrap `a - 2π·⌊a / 2π⌋`. -/
noncomputable def wrap_twopi (a : ℝ) : ℝ := a - 2 * π * ⌊a / (2 * π)⌋

/-- Modelled from the spec: `Planewaves::setChannelAzimuth`
(src/Dev/Decoder.h:201, body not in src/) stores the azimuth of one channel
normalized into [0, 2π). -/
noncomputable def Planewaves.setChannelAzimuth (p : Planewaves) (index : ℕ)
    (azimuth : ℝ) : Planewaves :=
  { p with m_channels_azimuth :=
      Function.update p.m_channels_azimuth index (wrap_twopi azimuth) }

/-- Modelled from the spec: `Planewaves::setChannelsAzimuth`
(src/Dev/Decoder.h:210, body not in src/) stores the azimuths of all the
channels normalized into [0, 2π). -/
noncomputable def Planewaves.setChannelsAzimuth (p : Planewaves)
    (azimuths : ℕ → ℝ) : Planewaves :=
  { p with m_channels_azimuth := fun i =>
      if i < p.m_number_of_channels then wrap_twopi (azimuths i)
      else p.m_channels_azimuth i }

/-- `Planewaves::getNumberOfChannels` (src/Dev/Decoder.h:230-233). -/
def Planewaves.getNumberOfChannels (p : Planewaves) : ℕ :=
  p.m_number_of_channels

/-- `Planewaves::getChannelAzimuth` (src/Dev/Decoder.h:245-249): returns the
stored azimuth. -/
def Planewaves.getChannelAzimuth (p : Planewaves) (index : ℕ) : ℝ :=
  p.m_channels_azimuth index

theorem wrap_twopi_nonneg (a : ℝ) : 0 ≤ wrap_twopi a := by
  have h2pi : (0:ℝ) < 2 * π := by positivity
  have hfl : ((⌊a / (2 * π)⌋ : ℤ) : ℝ) ≤ a / (2 * π) := Int.floor_le _
  have hx : 2 * π * (a / (2 * π)) = a := by field_simp
  have := mul_le_mul_of_nonneg_left hfl h2pi.le
  rw [wrap_twopi]
  linarith

theorem wrap_twopi_lt (a : ℝ) : wrap_twopi a < 2 * π := by
  have h2pi : (0:ℝ) < 2 * π := by positivity
  have hfl : a / (2 * π) < (⌊a / (2 * π)⌋ : ℤ) + 1 := Int.lt_floor_add_one _
  have hx : 2 * π * (a / (2 * π)) = a := by field_simp
  have := mul_lt_mul_of_pos_left hfl h2pi
  rw [wrap_twopi]
  nlinarith

theorem wrap_twopi_neg_half_pi : wrap_twopi (-(π / 2)) = 3 * π / 2 := by
  have hpi : (π:ℝ) ≠ 0 := Real.pi_ne_zero
  have hx : (-(π / 2)) / (2 * π) = -(1 / 4 : ℝ) := by
    field_simp
    ring
  have hfl : ⌊(-(1 / 4) : ℝ)⌋ = -1 := by
    rw [Int.floor_eq_iff]
    norm_num
  rw [wrap_twopi, hx, hfl]
  push_cast
  ring

/-- Claim C4: for every channel index and every real input azimuth, after
`setChannelAzimuth` or `setChannelsAzimuth` the value reported by
`getChannelAzimuth` for that channel lies in [0, 2π); and the stored image of
the input -π/2 is 3π/2. -/
theorem channel_azimuth_normalized (p : Planewaves) (i : ℕ) (a : ℝ)
    (azimuths : ℕ → ℝ) (hi : i < p.m_number_of_channels) :
    (0 ≤ (p.setChannelAzimuth i a).getChannelAzimuth i
      ∧ (p.setChannelAzimuth i a).getChannelAzimuth i < 2 * π)
    ∧ (0 ≤ (p.setChannelsAzimuth azimuths).getChannelAzimuth i
      ∧ (p.setChannelsAzimuth azimuths).getChannelAzimuth i < 2 * π)
    ∧ (p.setChannelAzimuth i (-(π / 2))).getChannelAzimuth i = 3 * π / 2 := by
  have h1 : (p.setChannelAzimuth i a).getChannelAzimuth i = wrap_twopi a := by
    simp [Planewaves.setChannelAzimuth, Planewaves.getChannelAzimuth]
  have h2 : (p.setChannelsAzimuth azimuths).getChannelAzimuth i
      = wrap_twopi (azimuths i) := by
    simp [Planewaves.setChannelsAzimuth, Planewaves.getChannelAzimuth, hi]
  have h3 : (p.setChannelAzimuth i (-(π / 2))).getChannelAzimuth i
      = wrap_twopi (-(π / 2)) := by
    simp [Planewaves.setChannelAzimuth, Planewaves.getChannelAzimuth]
  rw [h1, h2, h3, wrap_twopi_neg_half_pi]
  exact ⟨⟨wrap_twopi_nonneg a, wrap_twopi_lt a⟩,
    ⟨wrap_twopi_nonneg _, wrap_twopi_lt _⟩, rfl⟩

/-- Example two-channel layout used by witnesses. -/
def planewavesExample : Planewaves := ⟨2, fun _ => 0⟩

/-- Witness for C4 on a two-channel layout, channel 0, input azimuth 5. -/
theorem channel_azimuth_normalized_witness :
    0 ≤ (planewavesExample.setChannelAzimuth 0 5).getChannelAzimuth 0
    ∧ (planewavesExample.setChannelAzimuth 0
        (-(π / 2))).getChannelAzimuth 0 = 3 * π / 2 := by
  have h := channel_azimuth_normalized planewavesExample 0 5 (fun _ => 0)
    (by decide)
  exact ⟨h.1.1, h.2.2⟩

/-! ## Error kinds (spec section 7) -/

/-- Modelled from the spec: the error kinds of section 7. -/
inductive HoaError where
  | configurationError
  | rangeError
deriving DecidableEq

/-! ## Regular decoder (class DecoderRegular) -/

/-- The `DecoderRegular` state (src/Dev/Decoder.h:304-361): it inherits
`Ambisonic` (the order) and `Planewaves` (the channel layout), and holds the
azimuth offset of the channels. -/
structure DecoderRegular where
  m_order : ℕ
  planewaves : Planewaves
  m_offset : ℝ

/-- `DecoderRegular` inherits `Planewaves::getNumberOfChannels`. -/
def DecoderRegular.getNumberOfChannels (d : DecoderRegular) : ℕ :=
  d.planewaves.getNumberOfChannels

/-- `DecoderRegular` inherits `Planewaves::getChannelAzimuth`. -/
def DecoderRegular.getChannelAzimuth (d : DecoderRegular) (index : ℕ) : ℝ :=
  d.planewaves.getChannelAzimuth index

/-- `DecoderRegular::getChannelsOffset` (src/Dev/Decoder.h:341-344). -/
def DecoderRegular.getChannelsOffset (d : DecoderRegular) : ℝ := d.m_offset

/-- Modelled from the spec: the `DecoderRegular` constructor body is not in
src/.  Per the spec, construction fails with a configuration error when the
order is < 1 or when the channel count is below the harmonic count 2N+1; on
success the channels are evenly spaced on the circle with offset 0. -/
noncomputable def mkDecoderRegular (order numberOfChannels : ℕ) :
    Except HoaError DecoderRegular :=
  if order < 1 ∨ numberOfChannels < m_number_of_harmonics order then
    .error .configurationError
  else
    .ok ⟨order, ⟨numberOfChannels, fun c => 2 * π * c / numberOfChannels⟩, 0⟩

/-- Claim C5: constructing a `DecoderRegular` with
channelCount < harmonicCount = 2N+1 fails with a configuration error, and
construction succeeds whenever channelCount ≥ harmonicCount. -/
theorem decoder_regular_construction (order c : ℕ) (h : 1 ≤ order) :
    (c < m_number_of_harmonics order →
      mkDecoderRegular order c = .error .configurationError)
    ∧ (m_number_of_harmonics order ≤ c →
      ∃ d, mkDecoderRegular order c = .ok d) := by
  constructor
  · intro hc
    rw [mkDecoderRegular, if_pos (Or.inr hc)]
  · intro hc
    rw [mkDecoderRegular, if_neg (by omega)]
    exact ⟨_, rfl⟩

/-- Witness for C5 at order 1 with 2 channels (fails) and 3 channels
(succeeds). -/
theorem decoder_regular_construction_witness :
    mkDecoderRegular 1 2 = .error .configurationError
    ∧ ∃ d, mkDecoderRegular 1 3 = .ok d := by
  have h2 := decoder_regular_construction 1 2 (by decide)
  have h3 := decoder_regular_construction 1 3 (by decide)
  exact ⟨h2.1 (by decide), h3.2 (by decide)⟩

/-! ## Binaural decoder (class DecoderBinaural) -/

/-- `DecoderBinaural::PinnaSize` (src/Dev/Decoder.h:467-471). -/
inductive PinnaSize where
  | Small
  | Large
deriving DecidableEq

/-- The `DecoderBinaural` state (src/Dev/Decoder.h:463-555): it inherits
`Ambisonic` and `Planewaves`, and holds a pinna size, a sample rate and the
loaded binaural filters.  The spec treats a filter entry as opaque data looked
up by the triple (order, pinna size, sample rate), so a loaded filter bank is
embedded as the key it was looked up with (`none` when nothing is loaded). -/
structure DecoderBinaural where
  m_order : ℕ
  planewaves : Planewaves
  m_pinna_size : PinnaSize
  m_sampleRate : ℝ
  m_filters_left : Option (ℕ × PinnaSize × ℝ)
  m_filters_right : Option (ℕ × PinnaSize × ℝ)

/-- `DecoderBinaural::getPinnaSize` (src/Dev/Decoder.h:518-521). -/
def DecoderBinaural.getPinnaSize (d : DecoderBinaural) : PinnaSize :=
  d.m_pinna_size

/-- `DecoderBinaural::getChannelName` (src/Dev/Decoder.h:530-537). -/
def DecoderBinaural.getChannelName (_ : DecoderBinaural) (index : ℕ) : String :=
  if index = 0 then "Headphone Left" else "Headphone Right"

/-- `DecoderBinaural` inherits `Planewaves::getNumberOfChannels`. -/
def DecoderBinaural.getNumberOfChannels (d : DecoderBinaural) : ℕ :=
  d.planewaves.getNumberOfChannels

/-- `DecoderBinaural` inherits `Planewaves::getChannelAzimuth`. -/
def DecoderBinaural.getChannelAzimuth (d : DecoderBinaural) (index : ℕ) : ℝ :=
  d.planewaves.getChannelAzimuth index

/-- Modelled from the spec: the `DecoderBinaural::setSampleRate` body is not
in src/.  Per the spec, the supported rates are exactly 44100, 48000, 88200
and 96000: a supported rate loads the (order, pinna size, rate) filter entry,
replacing any previously loaded filters; any other rate fails with a
configuration error and leaves the state unchanged. -/
noncomputable def DecoderBinaural.setSampleRate (d : DecoderBinaural)
    (sampleRate : ℝ) : DecoderBinaural × Option HoaError :=
  if sampleRate = 44100 ∨ sampleRate = 48000 ∨ sampleRate = 88200
      ∨ sampleRate = 96000 then
    ({ d with m_sampleRate := sampleRate,
              m_filters_left := some (d.m_order, d.m_pinna_size, sampleRate),
              m_filters_right := some (d.m_order, d.m_pinna_size, sampleRate) },
     none)
  else
    (d, some .configurationError)

/-- Claim C6: `DecoderBinaural::setSampleRate` succeeds exactly for the rates
44100, 48000, 88200 and 96000; for any other rate it fails with a
configuration error and leaves the whole state, in particular the loaded
filters, unchanged. -/
theorem binaural_set_sample_rate (d : DecoderBinaural) (rate : ℝ) :
    ((rate = 44100 ∨ rate = 48000 ∨ rate = 88200 ∨ rate = 96000) →
      (d.setSampleRate rate).2 = none)
    ∧ (rate ≠ 44100 → rate ≠ 48000 → rate ≠ 88200 → rate ≠ 96000 →
      (d.setSampleRate rate).2 = some HoaError.configurationError
      ∧ (d.setSampleRate rate).1 = d) := by
  constructor
  · intro hr
    rw [DecoderBinaural.setSampleRate, if_pos hr]
  · intro h1 h2 h3 h4
    rw [DecoderBinaural.setSampleRate, if_neg (by tauto)]
    exact ⟨rfl, rfl⟩

/-- Example binaural decoder state used by witnesses. -/
def binauralExample : DecoderBinaural :=
  ⟨1, ⟨2, fun _ => 0⟩, PinnaSize.Small, 0, none, none⟩

/-- Witness for C6: rate 44100 succeeds; rate 12345 fails with a configuration
error and leaves the state unchanged. -/
theorem binaural_set_sample_rate_witness :
    (binauralExample.setSampleRate 44100).2 = none
    ∧ (binauralExample.setSampleRate 12345).2
        = some HoaError.configurationError
    ∧ (binauralExample.setSampleRate 12345).1 = binauralExample := by
  have hok := (binaural_set_sample_rate binauralExample 44100).1 (Or.inl rfl)
  have hbad := (binaural_set_sample_rate binauralExample 12345).2
    (by norm_num) (by norm_num) (by norm_num) (by norm_num)
  exact ⟨hok, hbad.1, hbad.2⟩

/-! ## Regular decoding matrix and process (spec sections 4.2 and 4.4) -/

/-- Modelled from the spec: the `Encoder::process` body is not in src/.  For
the stored azimuth it writes the 2D harmonic-domain coefficients of a
unit-amplitude plane wave: the harmonic with signed degree o contributes
cos(o·θ) for o ≥ 0 (hence 1 for the degree-0 harmonic) and sin(|o|·θ) for
o < 0. -/
noncomputable def harmonicBasis (index : ℕ) (azimuth : ℝ) : ℝ :=
  if getHarmonicOrder index < 0 then
    Real.sin ((-(getHarmonicOrder index) : ℤ) * azimuth)
  else
    Real.cos ((getHarmonicOrder index : ℤ) * azimuth)

/-- Modelled from the spec: the `DecoderRegular` matrix construction is not in
src/.  The mode-matching row for channel c samples the harmonic basis at the
channel's azimuth shifted by the layout offset, scaled by 1/channelCount with
the non-zero-degree columns doubled, so that an omnidirectional input yields
the same gain 1/channelCount on every channel. -/
noncomputable def m_decoder_matrix (d : DecoderRegular) (c h : ℕ) : ℝ :=
  (if h = 0 then 1 else 2) / (d.getNumberOfChannels : ℝ)
    * harmonicBasis h (d.getChannelAzimuth c + d.m_offset)

/-- Modelled from the spec: the `DecoderRegular::process` body
(src/Dev/Decoder.h:360, body not in src/) applies the decoding matrix as a
single linear transform: output c is the sum over all harmonics of
input h times matrix entry (c, h). -/
noncomputable def DecoderRegular.process (d : DecoderRegular) (input : ℕ → ℝ)
    (c : ℕ) : ℝ :=
  ∑ h ∈ Finset.range (m_number_of_harmonics d.m_order),
    input h * m_decoder_matrix d c h

theorem regular_process_omni (d : DecoderRegular) (c : ℕ) :
    d.process (fun h => if h = 0 then 1 else 0) c
      = 1 / (d.getNumberOfChannels : ℝ) := by
  have hb : harmonicBasis 0 (d.getChannelAzimuth c + d.m_offset) = 1 := by
    have h0 : getHarmonicOrder 0 = 0 := by decide
    rw [harmonicBasis, h0]
    norm_num
  have hstep : ∀ h ∈ Finset.range (m_number_of_harmonics d.m_order),
      (fun h => if h = 0 then (1:ℝ) else 0) h * m_decoder_matrix d c h
        = if h = 0 then m_decoder_matrix d c h else 0 := by
    intro h _
    by_cases hh : h = 0 <;> simp [hh]
  rw [DecoderRegular.process, Finset.sum_congr rfl hstep,
    Finset.sum_ite_eq' (Finset.range (m_number_of_harmonics d.m_order)) 0
      (m_decoder_matrix d c),
    if_pos (Finset.mem_range.2 (by simp [m_number_of_harmonics]))]
  rw [m_decoder_matrix, if_pos rfl, hb, mul_one]

/-- Claim C3: for every regular decoder of order N ≥ 1 with
channelCount ≥ 2N+1, feeding `process` the input whose degree-0 coefficient
is 1 and all other harmonic coefficients are 0 produces the same non-zero
gain on every output channel. -/
theorem regular_decoder_omni_equal_gain (d : DecoderRegular)
    (h1 : 1 ≤ d.m_order)
    (h2 : m_number_of_harmonics d.m_order ≤ d.getNumberOfChannels)
    (c1 c2 : ℕ) (hc1 : c1 < d.getNumberOfChannels)
    (hc2 : c2 < d.getNumberOfChannels) :
    d.process (fun h => if h = 0 then 1 else 0) c1
      = d.process (fun h => if h = 0 then 1 else 0) c2
    ∧ d.process (fun h => if h = 0 then 1 else 0) c1 ≠ 0 := by
  have hC : 0 < d.getNumberOfChannels := lt_of_lt_of_le
    (by simp [m_number_of_harmonics]) h2
  constructor
  · rw [regular_process_omni d c1, regular_process_omni d c2]
  · rw [regular_process_omni d c1]
    have : (0:ℝ) < (d.getNumberOfChannels : ℝ) := by exact_mod_cast hC
    positivity

/-- Example regular decoder state used by witnesses: order 1, 4 channels. -/
def regularExample : DecoderRegular := ⟨1, ⟨4, fun _ => 0⟩, 0⟩

/-- Witness for C3: on the order-1, 4-channel regular decoder the
omnidirectional input yields the same non-zero gain on channels 0 and 1. -/
theorem regular_decoder_omni_equal_gain_witness :
    regularExample.process (fun h => if h = 0 then 1 else 0) 0
      = regularExample.process (fun h => if h = 0 then 1 else 0) 1
    ∧ regularExample.process (fun h => if h = 0 then 1 else 0) 0 ≠ 0 :=
  regular_decoder_omni_equal_gain regularExample (by decide) (by decide)
    0 1 (by decide) (by decide)

/-! ## Channel names -/

/-- The C cast `(int)x` truncates toward zero. -/
noncomputable def cIntTrunc (x : ℝ) : ℤ := if 0 ≤ x then ⌊x⌋ else ⌈x⌉

/-- `Planewaves::getChannelName` (src/Dev/Decoder.h:294-298): the string
"Channel index+1 : azimuth-in-degrees°". -/
noncomputable def Planewaves.getChannelName (p : Planewaves) (index : ℕ) :
    String :=
  "Channel " ++ toString (index + 1) ++ " : "
    ++ toString (cIntTrunc (p.getChannelAzimuth index / (2 * π) * 360)) ++ "°"

/-- `DecoderRegular` inherits `Planewaves::getChannelName`. -/
noncomputable def DecoderRegular.getChannelName (d : DecoderRegular)
    (index : ℕ) : String :=
  d.planewaves.getChannelName index

/-! ## Irregular decoder (class DecoderIrregular) -/

/-- The `DecoderIrregular` state (src/Dev/Decoder.h:370-458): it inherits
`Ambisonic` and `Planewaves`, and holds the channels offset and the number of
virtual channels. -/
structure DecoderIrregular where
  m_order : ℕ
  planewaves : Planewaves
  m_offset : ℝ
  m_number_of_virtual_channels : ℕ

/-- `DecoderIrregular` inherits `Planewaves::getNumberOfChannels`. -/
def DecoderIrregular.getNumberOfChannels (d : DecoderIrregular) : ℕ :=
  d.planewaves.getNumberOfChannels

/-- `DecoderIrregular` inherits `Planewaves::getChannelAzimuth`. -/
def DecoderIrregular.getChannelAzimuth (d : DecoderIrregular) (index : ℕ) :
    ℝ :=
  d.planewaves.getChannelAzimuth index

/-- `DecoderIrregular::getChannelsOffset` (src/Dev/Decoder.h:409-412). -/
def DecoderIrregular.getChannelsOffset (d : DecoderIrregular) : ℝ :=
  d.m_offset

/-- `DecoderIrregular::getNumberOfVirutalChannels`
(src/Dev/Decoder.h:419-422), name as in the source. -/
def DecoderIrregular.getNumberOfVirutalChannels (d : DecoderIrregular) : ℕ :=
  d.m_number_of_virtual_channels

/-- `DecoderIrregular` inherits `Planewaves::getChannelName`. -/
noncomputable def DecoderIrregular.getChannelName (d : DecoderIrregular)
    (index : ℕ) : String :=
  d.planewaves.getChannelName index

/-! ## Multi decoder (class DecoderMulti) -/

/-- `DecoderMulti::Mode` (src/Dev/Decoder.h:564-569). -/
inductive Mode where
  | Regular
  | Irregular
  | Binaural
deriving DecidableEq

/-- The `DecoderMulti` state (src/Dev/Decoder.h:560-821): the three owned
decoders and the active mode. -/
structure DecoderMulti where
  m_decoder_regular : DecoderRegular
  m_decoder_irregular : DecoderIrregular
  m_decoder_binaural : DecoderBinaural
  m_mode : Mode

/-- `DecoderMulti::getNumberOfChannels` (src/Dev/Decoder.h:621-629). -/
def DecoderMulti.getNumberOfChannels (m : DecoderMulti) : ℕ :=
  if m.m_mode = Mode.Regular then m.m_decoder_regular.getNumberOfChannels
  else if m.m_mode = Mode.Irregular then
    m.m_decoder_irregular.getNumberOfChannels
  else m.m_decoder_binaural.getNumberOfChannels

/-- `DecoderMulti::getNumberOfVirutalChannels` (src/Dev/Decoder.h:636-642),
name as in the source. -/
def DecoderMulti.getNumberOfVirutalChannels (m : DecoderMulti) : ℕ :=
  if m.m_mode = Mode.Irregular then
    m.m_decoder_irregular.getNumberOfVirutalChannels
  else 0

/-- `DecoderMulti::getChannelsOffset` (src/Dev/Decoder.h:656-664). -/
def DecoderMulti.getChannelsOffset (m : DecoderMulti) : ℝ :=
  if m.m_mode = Mode.Regular then m.m_decoder_regular.getChannelsOffset
  else if m.m_mode = Mode.Irregular then
    m.m_decoder_irregular.getChannelsOffset
  else 0

/-- `DecoderMulti::getPinnaSize` (src/Dev/Decoder.h:708-711): always reads the
binaural decoder. -/
def DecoderMulti.getPinnaSize (m : DecoderMulti) : PinnaSize :=
  m.m_decoder_binaural.getPinnaSize

/-- `DecoderMulti::getChannelAzimuth` (src/Dev/Decoder.h:723-731). -/
def DecoderMulti.getChannelAzimuth (m : DecoderMulti) (index : ℕ) : ℝ :=
  if m.m_mode = Mode.Regular then m.m_decoder_regular.getChannelAzimuth index
  else if m.m_mode = Mode.Irregular then
    m.m_decoder_irregular.getChannelAzimuth index
  else m.m_decoder_binaural.getChannelAzimuth index

/-- `DecoderMulti::getChannelName` (src/Dev/Decoder.h:780-788). -/
noncomputable def DecoderMulti.getChannelName (m : DecoderMulti) (index : ℕ) :
    String :=
  if m.m_mode = Mode.Regular then m.m_decoder_regular.getChannelName index
  else if m.m_mode = Mode.Irregular then
    m.m_decoder_irregular.getChannelName index
  else m.m_decoder_binaural.getChannelName index

/-- Claim C7: in every active mode of `DecoderMulti`, each read accessor that
the active decoder supports — channel count, channel azimuth, channels offset
(Regular and Irregular), pinna size (Binaural), channel name — returns
exactly the value the active decoder returns for the same query. -/
theorem multi_accessors_forward (m : DecoderMulti) (i : ℕ) :
    (m.m_mode = Mode.Regular →
      m.getNumberOfChannels = m.m_decoder_regular.getNumberOfChannels
      ∧ m.getChannelAzimuth i = m.m_decoder_regular.getChannelAzimuth i
      ∧ m.getChannelsOffset = m.m_decoder_regular.getChannelsOffset
      ∧ m.getChannelName i = m.m_decoder_regular.getChannelName i)
    ∧ (m.m_mode = Mode.Irregular →
      m.getNumberOfChannels = m.m_decoder_irregular.getNumberOfChannels
      ∧ m.getChannelAzimuth i = m.m_decoder_irregular.getChannelAzimuth i
      ∧ m.getChannelsOffset = m.m_decoder_irregular.getChannelsOffset
      ∧ m.getChannelName i = m.m_decoder_irregular.getChannelName i)
    ∧ (m.m_mode = Mode.Binaural →
      m.getNumberOfChannels = m.m_decoder_binaural.getNumberOfChannels
      ∧ m.getChannelAzimuth i = m.m_decoder_binaural.getChannelAzimuth i
      ∧ m.getPinnaSize = m.m_decoder_binaural.getPinnaSize
      ∧ m.getChannelName i = m.m_decoder_binaural.getChannelName i) := by
  refine ⟨fun h => ?_, fun h => ?_, fun h => ?_⟩ <;>
    simp [DecoderMulti.getNumberOfChannels, DecoderMulti.getChannelAzimuth,
      DecoderMulti.getChannelsOffset, DecoderMulti.getChannelName,
      DecoderMulti.getPinnaSize, h]

/-- Example irregular decoder state used by witnesses. -/
def irregularExample : DecoderIrregular := ⟨1, ⟨2, fun _ => 0⟩, 0, 3⟩

/-- Example multi decoder state in Regular mode used by witnesses. -/
def multiExample : DecoderMulti :=
  ⟨regularExample, irregularExample, binauralExample, Mode.Regular⟩

/-- Example multi decoder state in Irregular mode used by witnesses. -/
def multiIrregularExample : DecoderMulti :=
  ⟨regularExample, irregularExample, binauralExample, Mode.Irregular⟩

/-- Witness for C7 on the Regular-mode example at channel 0. -/
theorem multi_accessors_forward_witness :
    multiExample.getNumberOfChannels
      = multiExample.m_decoder_regular.getNumberOfChannels
    ∧ multiExample.getChannelsOffset
      = multiExample.m_decoder_regular.getChannelsOffset := by
  have h := (multi_accessors_forward multiExample 0).1 rfl
  exact ⟨h.1, h.2.2.1⟩

/-- Claim C10: `DecoderMulti::getNumberOfVirutalChannels` returns the
irregular decoder's virtual-channel count when the active mode is Irregular,
and 0 in any other mode. -/
theorem multi_virtual_channels (m : DecoderMulti) :
    (m.m_mode = Mode.Irregular →
      m.getNumberOfVirutalChannels
        = m.m_decoder_irregular.getNumberOfVirutalChannels)
    ∧ (m.m_mode ≠ Mode.Irregular → m.getNumberOfVirutalChannels = 0) := by
  constructor <;> intro h <;>
    simp [DecoderMulti.getNumberOfVirutalChannels, h]

/-- Witness for C10 on the Irregular-mode and Regular-mode examples. -/
theorem multi_virtual_channels_witness :
    multiIrregularExample.getNumberOfVirutalChannels
      = multiIrregularExample.m_decoder_irregular.getNumberOfVirutalChannels
    ∧ multiExample.getNumberOfVirutalChannels = 0 :=
  ⟨(multi_virtual_channels multiIrregularExample).1 rfl,
    (multi_virtual_channels multiExample).2 (by decide)⟩

/-! ## Irregular nearest-channel interpolation (spec section 4.5) -/

/-- Fractional part of a rational: angles below are fractions of a full turn,
so this wraps an angle difference into [0, 1). -/
def fracTurn (x : ℚ) : ℚ := x - ⌊x⌋

/-- Angular distance on the circle between two angles given as fractions of a
full turn: the shorter of the two arcs between them. -/
def circDist (x y : ℚ) : ℚ := min (fracTurn (x - y)) (1 - fracTurn (x - y))

/-- Index in [0, n) minimizing f, first index on ties. -/
def argminIdx (f : ℕ → ℚ) : ℕ → ℕ
  | 0 => 0
  | n + 1 => if f n < f (argminIdx f n) then n else argminIdx f n

/-- Index in [0, n) other than `skip` minimizing f; returns `skip` only when
no such index exists. -/
def argminIdxExcept (f : ℕ → ℚ) (skip : ℕ) : ℕ → ℕ
  | 0 => 0
  | n + 1 =>
    if n = skip then argminIdxExcept f skip n
    else if argminIdxExcept f skip n = skip then n
    else if f n < f (argminIdxExcept f skip n) then n
    else argminIdxExcept f skip n

theorem fracTurn_nonneg (x : ℚ) : 0 ≤ fracTurn x :=
  sub_nonneg.2 (Int.floor_le x)

theorem fracTurn_lt_one (x : ℚ) : fracTurn x < 1 :=
  sub_lt_iff_lt_add'.2 (Int.lt_floor_add_one x)

theorem circDist_nonneg (x y : ℚ) : 0 ≤ circDist x y :=
  le_min (fracTurn_nonneg _) (by linarith [fracTurn_lt_one (x - y)])

theorem argminIdx_lt (f : ℕ → ℚ) (n : ℕ) (hn : 0 < n) : argminIdx f n < n := by
  induction n with
  | zero => omega
  | succ m ih =>
    simp only [argminIdx]
    split_ifs with h
    · omega
    · rcases Nat.eq_zero_or_pos m with hm | hm
      · subst hm
        simp [argminIdx]
      · exact lt_trans (ih hm) (Nat.lt_succ_self m)

theorem argminIdx_min (f : ℕ → ℚ) (n i : ℕ) (hi : i < n) :
    f (argminIdx f n) ≤ f i := by
  induction n with
  | zero => omega
  | succ m ih =>
    simp only [argminIdx]
    by_cases hin : i = m
    · subst hin
      split_ifs with h
      · exact le_refl _
      · exact le_of_not_lt h
    · have hlt : i < m := by omega
      split_ifs with h
      · exact le_of_lt (lt_of_lt_of_le h (ih hlt))
      · exact ih hlt

theorem argminIdxExcept_lt (f : ℕ → ℚ) (skip n : ℕ) (hn : 0 < n) :
    argminIdxExcept f skip n < n := by
  induction n with
  | zero => omega
  | succ m ih =>
    simp only [argminIdxExcept]
    split_ifs with h1 h2 h3
    · rcases Nat.eq_zero_or_pos m with hm | hm
      · subst hm
        simp [argminIdxExcept]
      · exact lt_trans (ih hm) (Nat.lt_succ_self m)
    · omega
    · omega
    · rcases Nat.eq_zero_or_pos m with hm | hm
      · subst hm
        simp [argminIdxExcept]
      · exact lt_trans (ih hm) (Nat.lt_succ_self m)

/-- Modelled from the spec: the `DecoderIrregular` nearest-channel
computation that fills `m_nearest_channel` (src/Dev/Decoder.h:380) is not in
src/.  For a virtual position, the two angularly nearest real channels are
selected, and blend weights proportional to the opposite angular distances
are assigned, so that the closer channel gets the larger weight and a virtual
position coinciding with a real channel gives that channel full weight.
Angles are fractions of a full turn.  Returns the pair of referenced channel
indices and the pair of blend weights. -/
def m_nearest_channel (channels : ℕ → ℚ) (numberOfChannels : ℕ) (v : ℚ) :
    (ℕ × ℕ) × (ℚ × ℚ) :=
  let dist := fun i => circDist v (channels i)
  let i1 := argminIdx dist numberOfChannels
  let i2 := if numberOfChannels ≤ 1 then i1
    else argminIdxExcept dist i1 numberOfChannels
  let d1 := dist i1
  let d2 := dist i2
  if d1 = 0 then ((i1, i2), (1, 0))
  else ((i1, i2), (d2 / (d1 + d2), d1 / (d1 + d2)))

/-- Modelled from the spec: the virtual channels of the irregular decoder are
the harmonicCount evenly spaced positions on the circle, here as fractions of
a full turn. -/
def virtualChannelPosition (order k : ℕ) : ℚ :=
  (k : ℚ) / (m_number_of_harmonics order : ℚ)

/-- Claim C8: for every irregular layout with at least one channel and every
virtual channel position, the nearest-channel pair references two real
channel indices, each below the channel count, whose blend weights sum to 1;
and when the virtual position coincides with a real channel, full weight
(weight 1) goes to a channel at angular distance zero from it. -/
theorem irregular_nearest_channel_invariants (channels : ℕ → ℚ)
    (n order k : ℕ) (hn : 1 ≤ n) (hk : k < m_number_of_harmonics order)
    (i1 i2 : ℕ) (w1 w2 : ℚ)
    (hr : m_nearest_channel channels n (virtualChannelPosition order k)
      = ((i1, i2), (w1, w2))) :
    i1 < n ∧ i2 < n ∧ w1 + w2 = 1
    ∧ (∀ c, c < n →
        circDist (virtualChannelPosition order k) (channels c) = 0 →
        w1 = 1
        ∧ circDist (virtualChannelPosition order k) (channels i1) = 0) := by
  set v := virtualChannelPosition order k with hv
  set dist := fun i => circDist v (channels i) with hdist
  set j1 := argminIdx dist n with hj1
  set j2 := (if n ≤ 1 then j1 else argminIdxExcept dist j1 n) with hj2
  have hj1lt : j1 < n := argminIdx_lt dist n hn
  have hj2lt : j2 < n := by
    rw [hj2]
    split_ifs with h
    · exact hj1lt
    · exact argminIdxExcept_lt dist j1 n hn
  have hd1 : 0 ≤ dist j1 := circDist_nonneg _ _
  have hd2 : 0 ≤ dist j2 := circDist_nonneg _ _
  have hre : m_nearest_channel channels n v
      = if dist j1 = 0 then ((j1, j2), (1, 0))
        else ((j1, j2), (dist j2 / (dist j1 + dist j2),
          dist j1 / (dist j1 + dist j2))) := rfl
  rw [hre] at hr
  by_cases hz : dist j1 = 0
  · rw [if_pos hz] at hr
    obtain ⟨h1, h2, h3, h4⟩ : j1 = i1 ∧ j2 = i2 ∧ (1:ℚ) = w1 ∧ (0:ℚ) = w2 := by
      have := hr
      simp only [Prod.mk.injEq] at this
      exact ⟨this.1.1, this.1.2, this.2.1, this.2.2⟩
    refine ⟨h1 ▸ hj1lt, h2 ▸ hj2lt, by rw [← h3, ← h4]; norm_num,
      fun c hc hc0 => ⟨h3.symm, h1 ▸ hz⟩⟩
  · rw [if_neg hz] at hr
    obtain ⟨h1, h2, h3, h4⟩ : j1 = i1 ∧ j2 = i2
        ∧ dist j2 / (dist j1 + dist j2) = w1
        ∧ dist j1 / (dist j1 + dist j2) = w2 := by
      have := hr
      simp only [Prod.mk.injEq] at this
      exact ⟨this.1.1, this.1.2, this.2.1, this.2.2⟩
    have hsum : (0:ℚ) < dist j1 + dist j2 := by
      rcases lt_of_le_of_ne hd1 (Ne.symm hz) with h
      linarith
    refine ⟨h1 ▸ hj1lt, h2 ▸ hj2lt, ?_, fun c hc hc0 => absurd ?_ hz⟩
    · rw [← h3, ← h4, div_add_div_same, add_comm (dist j2) (dist j1),
        div_self (ne_of_gt hsum)]
    · have hmin : dist j1 ≤ dist c := argminIdx_min dist n c hc
      exact le_antisymm (hc0 ▸ hmin) hd1

/-- Example irregular layout used by the C8 witness: channel 0 at angle 0 and
channel 1 at a quarter turn. -/
def channelsExample : ℕ → ℚ := fun i => if i = 0 then 0 else 1 / 4

/-- Witness for C8: order 1, two channels, virtual channel 0 (which coincides
with real channel 0, so that channel gets full weight). -/
theorem irregular_nearest_channel_invariants_witness :
    (0:ℕ) < 2 ∧ (1:ℕ) < 2 ∧ (1:ℚ) + 0 = 1
    ∧ (∀ c, c < 2 →
        circDist (virtualChannelPosition 1 0) (channelsExample c) = 0 →
        (1:ℚ) = 1
        ∧ circDist (virtualChannelPosition 1 0) (channelsExample 0) = 0) := by
  have hr : m_nearest_channel channelsExample 2 (virtualChannelPosition 1 0)
      = ((0, 1), (1, 0)) := by
    norm_num [m_nearest_channel, virtualChannelPosition,
      m_number_of_harmonics, channelsExample, circDist, fracTurn, argminIdx,
      argminIdxExcept]
  exact irregular_nearest_channel_invariants channelsExample 2 1 0
    (by decide) (by decide) 0 1 1 0 hr
